import Mathlib

/-!
Verification of the osutils package (single-process and piped process
execution plus filesystem helpers) against its design specification.

The Go source is shallowly embedded: pure computations become Lean
functions; interactions with the operating system (process start/wait,
pipe close, stat, mkdir, symlink resolution) are driven by explicit
oracle arguments describing the OS outcome, and the functions return the
trace of OS actions they perform together with their result, so that
ordering claims (what is closed/started/waited-for, and in which order)
are statements about the returned trace.
-/

set_option autoImplicit false

namespace OsUtils

/-- Error sentinels of the package (`ErrNotAbsolutePath`, `ErrNil`,
`ErrEmpty`, `ErrNotMultipleCommands`, `ErrFileDoesNotExist`,
`ErrNotRegularFile`, `ErrNotDir` in osutils.go) plus opaque OS-level
errors, carried with a numeric code so that distinct OS failures stay
distinct. -/
inductive GoError where
  | errNotAbsolutePath
  | errNil
  | errEmpty
  | errNotMultipleCommands
  | errFileDoesNotExist
  | errNotRegularFile
  | errNotDir
  | osError (code : Nat)
deriving DecidableEq, Repr

/-- Model of `isAbsolutePath` (osutils.go line 365): on Unix,
`filepath.IsAbs(path)` is exactly the test that the path starts with a
slash, i.e. that its first character is a slash. -/
def isAbsolutePath (path : String) : Bool :=
  match path.data with
  | [] => false
  | c :: _ => c = '/'

/-- Kind recorded in an `os.FileInfo` mode, as far as the package
inspects it (`IsRegular`, `IsDir`). -/
inductive FileMode where
  | regular
  | dir
  | other
deriving DecidableEq, Repr

/-- Whether the mode is a regular file (`fileInfo.Mode().IsRegular()`). -/
def FileMode.isRegular : FileMode → Bool
  | .regular => true
  | _ => false

/-- Oracle describing what `os.Stat` reports for the path under
consideration: an existing entry with a mode, a does-not-exist error, or
some other OS failure. -/
inductive StatOutcome where
  | found (mode : FileMode)
  | notFound
  | failed (code : Nat)
deriving DecidableEq, Repr

/-- Model of the `stat` wrapper (osutils.go lines 369-378): an
`os.IsNotExist` error is converted to a nil `FileInfo` with nil error;
other errors propagate; success yields the file info. -/
def stat (st : StatOutcome) : Except GoError (Option FileMode) :=
  match st with
  | .found mode => .ok (some mode)
  | .notFound => .ok none
  | .failed code => .error (.osError code)

/-- Model of `isRegularFileExists` (osutils.go lines 257-272): result is
the returned pair (bool, error), with the error as an `Option`. -/
def isRegularFileExists (absolutePath : String) (st : StatOutcome) :
    Bool × Option GoError :=
  if ¬ isAbsolutePath absolutePath then (false, some .errNotAbsolutePath)
  else
    match stat st with
    | .error e => (false, some e)
    | .ok none => (false, none)
    | .ok (some mode) =>
      if ¬ mode.isRegular then (false, some .errNotRegularFile)
      else (true, none)

/-- Model of `isFileExists` (osutils.go lines 291-297): returns
`fileInfo != nil` together with the error from `stat`. -/
def isFileExists (absolutePath : String) (st : StatOutcome) :
    Bool × Option GoError :=
  if ¬ isAbsolutePath absolutePath then (false, some .errNotAbsolutePath)
  else
    match stat st with
    | .error e => (false, some e)
    | .ok fileInfo => (fileInfo.isSome, none)

/-- Filesystem actions a helper can perform against the OS, recorded in
traces: a `stat` of a path, delegation to `os.Open`, an `os.Mkdir`, and
symlink-resolving canonicalization of a path. -/
inductive FsAction where
  | statOf (path : String)
  | osOpen (path : String)
  | osMkdir (path : String)
  | canonicalize (path : String)
deriving DecidableEq, Repr

/-- Model of the package-private `open` (osutils.go lines 236-248,
`open` being a Lean keyword the definition is named `openFile`): check
the path is absolute, ask `isFileExists` (one stat), fail with
`ErrFileDoesNotExist` when absent, and only then delegate to `os.Open`
whose outcome is the oracle `openRes`. Returns the trace of filesystem
actions and the result. -/
def openFile (absolutePath : String) (st : StatOutcome)
    (openRes : Option Nat) : List FsAction × Option GoError :=
  if ¬ isAbsolutePath absolutePath then ([], some .errNotAbsolutePath)
  else
    match isFileExists absolutePath st with
    | (_, some e) => ([.statOf absolutePath], some e)
    | (exists?, none) =>
      if ¬ exists? then ([.statOf absolutePath], some .errFileDoesNotExist)
      else ([.statOf absolutePath, .osOpen absolutePath], openRes.map .osError)

/-- A single command spec (`Cmd` in osutils.go): an argument vector that
may be Go-nil (`none`) or present (`some`), an optional absolute working
directory (empty string means unset), and an environment list. The three
stream fields are caller-supplied opaque values and play no role in the
claims about `execute`, so they are not carried. -/
structure Cmd where
  args : Option (List String)
  absoluteDir : String
  env : List String
deriving DecidableEq, Repr

/-- A pipeline stage spec (`PipeCmd` in osutils.go). -/
structure PipeCmd where
  args : Option (List String)
  absoluteDir : String
  env : List String
deriving DecidableEq, Repr

/-- A pipeline spec (`PipeCmdList` in osutils.go): the stage list may be
Go-nil (`none`). The external stdin/stdout/stderr streams are opaque
caller values represented symbolically in the wiring model. -/
structure PipeCmdList where
  pipeCmds : Option (List PipeCmd)
deriving DecidableEq, Repr

/-- Process descriptor fields set by `execCmd` / `execPipeCmd`
(osutils.go lines 380-405) before stream wiring: `exec.Command` stores
the full argument vector (both the one-argument and the many-argument
calls yield `Args` equal to the given vector), then `Dir` and `Env` are
copied from the spec. -/
structure ExecCmd where
  args : List String
  dir : String
  env : List String
deriving DecidableEq, Repr

/-- Model of `execPipeCmd` (osutils.go lines 395-405): builds the
descriptor for one stage; the `len(Args) == 1` and general branches of
the Go code both put the whole vector into the descriptor. The Go
function's error result is always nil. -/
def execPipeCmd (pipeCmd : PipeCmd) : ExecCmd :=
  { args := pipeCmd.args.getD []
    dir := pipeCmd.absoluteDir
    env := pipeCmd.env }

/-- Model of `execCmd` (osutils.go lines 380-393) restricted to the
fields the claims mention; stream fields are copied opaquely. -/
def execCmdOf (cmd : Cmd) : ExecCmd :=
  { args := cmd.args.getD []
    dir := cmd.absoluteDir
    env := cmd.env }

/-- Validation applied to one pipeline stage by the loop at osutils.go
lines 147-157, in source order: nil argument vector, empty argument
vector, then non-empty but non-absolute working directory. -/
def stageValidationError (pipeCmd : PipeCmd) : Option GoError :=
  match pipeCmd.args with
  | none => some .errNil
  | some args =>
    if args.length = 0 then some .errEmpty
    else if pipeCmd.absoluteDir ≠ "" ∧ ¬ isAbsolutePath pipeCmd.absoluteDir then
      some .errNotAbsolutePath
    else none

/-- The per-stage validation loop of `executePiped` (osutils.go lines
147-157): first offending stage in list order wins. -/
def validateStages : List PipeCmd → Option GoError
  | [] => none
  | pipeCmd :: rest =>
    match stageValidationError pipeCmd with
    | some e => some e
    | none => validateStages rest

/-- Model of `execute` (osutils.go lines 116-134): validation in source
order, then descriptor construction (`execCmd` never fails), then
`Start` whose OS outcome is the oracle `startRes` (an opaque OS error
code, or `none` for success); success returns a wait handle, modelled as
the unit value. -/
def execute (cmd : Cmd) (startRes : Option Nat) : Except GoError Unit :=
  match cmd.args with
  | none => .error .errNil
  | some args =>
    if args.length = 0 then .error .errEmpty
    else if cmd.absoluteDir ≠ "" ∧ ¬ isAbsolutePath cmd.absoluteDir then
      .error .errNotAbsolutePath
    else
      match startRes with
      | some code => .error (.osError code)
      | none => .ok ()

/-- Value a stream field of a stage descriptor can hold after wiring:
one of the pipeline's three external streams, or the read/write end of
the in-memory pipe with the given allocation index. -/
inductive StreamEnd where
  | extStdin
  | extStdout
  | extStderr
  | pipeRead (pipeId : Nat)
  | pipeWrite (pipeId : Nat)
deriving DecidableEq, Repr

/-- Events of a pipeline launch recorded in order: allocation of the
pipe with a given id (`io.Pipe()`), an attempt to `Start` a stage, and a
kill of a stage (never emitted by this code; present so that its absence
is expressible). -/
inductive LaunchAction where
  | pipeAlloc (pipeId : Nat)
  | startAttempt (stage : Nat)
  | kill (stage : Nat)
deriving DecidableEq, Repr

/-- State of the wiring phase of `executePiped` (osutils.go lines
166-183): the stream fields of each stage descriptor (unassigned fields
are `none`, matching the nil zero value of `exec.Cmd` fields), the
`readers` and `writers` arrays mapping boundary slot to pipe id, the
number of pipes allocated so far, and the trace of allocations. -/
structure Wiring where
  stdinOf : Nat → Option StreamEnd
  stdoutOf : Nat → Option StreamEnd
  stderrOf : Nat → Option StreamEnd
  readerSlot : Nat → Option Nat
  writerSlot : Nat → Option Nat
  pipesAllocated : Nat
  trace : List LaunchAction

/-- Pointwise update of an assignment map at one index. -/
def setAt {α : Type} (f : Nat → Option α) (i : Nat) (v : α) : Nat → Option α :=
  fun j => if j = i then some v else f j

/-- The loop of osutils.go lines 172-181 as explicit state passing.
Iteration `i` holds the pipe ends `reader`/`writer` currently in scope:
stage `i`'s stdout becomes that write end, its stderr the external
stderr, stage `i+1`'s stdin that read end; then, except on the last
iteration, a fresh pipe is allocated and stored in slot `i+1` and
becomes the in-scope pair. -/
def wireLoop (numCmds : Nat) (i reader writer : Nat) (st : Wiring) : Wiring :=
  if h : i < numCmds - 1 then
    let st1 : Wiring :=
      { st with
        stdoutOf := setAt st.stdoutOf i (.pipeWrite writer)
        stderrOf := setAt st.stderrOf i .extStderr
        stdinOf := setAt st.stdinOf (i + 1) (.pipeRead reader) }
    if i ≠ numCmds - 2 then
      let p := st1.pipesAllocated
      let st2 : Wiring :=
        { st1 with
          readerSlot := setAt st1.readerSlot (i + 1) p
          writerSlot := setAt st1.writerSlot (i + 1) p
          pipesAllocated := p + 1
          trace := st1.trace ++ [.pipeAlloc p] }
      wireLoop numCmds (i + 1) p p st2
    else
      wireLoop numCmds (i + 1) reader writer st1
  else st
termination_by numCmds - 1 - i
decreasing_by all_goals omega

/-- State after the pre-loop wiring statements of `executePiped`
(osutils.go lines 166-171): no stream field set except stage 0's stdin,
which is the pipeline's external stdin, and the first `io.Pipe()`
allocated and stored in boundary slot 0. -/
def wireInit : Wiring :=
  { stdinOf := setAt (fun _ => none) 0 .extStdin
    stdoutOf := fun _ => none
    stderrOf := fun _ => none
    readerSlot := setAt (fun _ => none) 0 0
    writerSlot := setAt (fun _ => none) 0 0
    pipesAllocated := 1
    trace := [.pipeAlloc 0] }

/-- The wiring phase of `executePiped` (osutils.go lines 166-183): the
initial `io.Pipe()` goes into slot 0, stage 0's stdin is the external
stdin, the loop runs from 0, and afterwards the last stage's stdout and
stderr are the external stdout and stderr. -/
def wire (numCmds : Nat) : Wiring :=
  let st2 := wireLoop numCmds 0 0 0 wireInit
  { st2 with
    stdoutOf := setAt st2.stdoutOf (numCmds - 1) .extStdout
    stderrOf := setAt st2.stderrOf (numCmds - 1) .extStderr }

/-- The start loop of `executePiped` (osutils.go lines 184-188): start
each stage in index order; the first failing `Start` aborts the loop and
its error is returned. The oracle `startRes` gives each stage's Start
outcome as an opaque OS error code, `none` meaning success. Returns the
trace of start attempts and the first error. -/
def startLoop (numCmds : Nat) (startRes : Nat → Option Nat) (i : Nat) :
    List LaunchAction × Option GoError :=
  if _h : i < numCmds then
    match startRes i with
    | some code => ([.startAttempt i], some (.osError code))
    | none =>
      let rest := startLoop numCmds startRes (i + 1)
      (.startAttempt i :: rest.1, rest.2)
  else ([], none)
termination_by numCmds - i
decreasing_by all_goals omega

/-- Model of `executePiped` (osutils.go lines 136-211) up to the return
of the wait closure: validation in source order, stage descriptor
construction via `execPipeCmd`, pipe wiring, then the start loop.
Returns the trace of launch actions and either the first error or, on
success, the descriptor list together with the stage count (standing for
the wait closure's captured state). -/
def executePiped (pipeCmdList : PipeCmdList) (startRes : Nat → Option Nat) :
    List LaunchAction × Except GoError (List ExecCmd × Nat) :=
  match pipeCmdList.pipeCmds with
  | none => ([], .error .errNil)
  | some pipeCmds =>
    let numCmds := pipeCmds.length
    if numCmds = 0 then ([], .error .errEmpty)
    else if numCmds ≤ 1 then ([], .error .errNotMultipleCommands)
    else
      match validateStages pipeCmds with
      | some e => ([], .error e)
      | none =>
        let execCmds := pipeCmds.map execPipeCmd
        let wiring := wire numCmds
        let started := startLoop numCmds startRes 0
        match started.2 with
        | some e => (wiring.trace ++ started.1, .error e)
        | none => (wiring.trace ++ started.1, .ok (execCmds, numCmds))

/-- Actions the wait closure performs, in order: `Wait` on a stage,
`Close` on the read end stored in a boundary slot, `Close` on the write
end stored in a boundary slot. -/
inductive WaitAction where
  | waitStage (stage : Nat)
  | closeRead (slot : Nat)
  | closeWrite (slot : Nat)
deriving DecidableEq, Repr

/-- The loop of the wait closure (osutils.go lines 190-202), as a
function of the loop index: wait for stage `i` (oracle `waitRes`, an
opaque OS error code or `none` for a clean exit); on error stop; if `i`
is not 0 close `readers[i-1]` (oracle `closeR`); then close `writers[i]`
(oracle `closeW`); any close error also stops the loop. Returns the
trace of actions performed and the first error. -/
def waitJoinLoop (numCmds : Nat) (waitRes closeR closeW : Nat → Option Nat)
    (i : Nat) : List WaitAction × Option GoError :=
  if _h : i < numCmds - 1 then
    match waitRes i with
    | some code => ([.waitStage i], some (.osError code))
    | none =>
      if i ≠ 0 then
        match closeR (i - 1) with
        | some code => ([.waitStage i, .closeRead (i - 1)], some (.osError code))
        | none =>
          match closeW i with
          | some code =>
            ([.waitStage i, .closeRead (i - 1), .closeWrite i], some (.osError code))
          | none =>
            let rest := waitJoinLoop numCmds waitRes closeR closeW (i + 1)
            (.waitStage i :: .closeRead (i - 1) :: .closeWrite i :: rest.1, rest.2)
      else
        match closeW i with
        | some code => ([.waitStage i, .closeWrite i], some (.osError code))
        | none =>
          let rest := waitJoinLoop numCmds waitRes closeR closeW (i + 1)
          (.waitStage i :: .closeWrite i :: rest.1, rest.2)
  else ([], none)
termination_by numCmds - 1 - i
decreasing_by all_goals omega

/-- The wait closure returned by `executePiped` (osutils.go lines
189-210): run the join loop over stages `0 .. numCmds-2`; if it ended
without error, wait for the final stage `numCmds-1`, then close
`readers[numCmds-2]`, and return nil only if that close also
succeeded. -/
def waitPiped (numCmds : Nat) (waitRes closeR closeW : Nat → Option Nat) :
    List WaitAction × Option GoError :=
  let looped := waitJoinLoop numCmds waitRes closeR closeW 0
  match looped.2 with
  | some e => (looped.1, some e)
  | none =>
    match waitRes (numCmds - 1) with
    | some code => (looped.1 ++ [.waitStage (numCmds - 1)], some (.osError code))
    | none =>
      match closeR (numCmds - 2) with
      | some code =>
        (looped.1 ++ [.waitStage (numCmds - 1), .closeRead (numCmds - 2)],
          some (.osError code))
      | none =>
        (looped.1 ++ [.waitStage (numCmds - 1), .closeRead (numCmds - 2)], none)

/-- Modelled from the spec: path joining by the OS path library
(`filepath.Join(base, elem)` is not part of this repository). For an
absolute base and a single well-formed element it appends the element
after a separator. -/
def joinPath (base elem : String) : String :=
  base ++ "/" ++ elem

/-- Model of `newTempSubDir` (osutils.go lines 350-359): require an
absolute base, join it with a freshly generated UUID (oracle `uuid`),
`os.Mkdir` the joined path (oracle `mkdirRes`, an opaque OS error code
or `none` for success), and only on success canonicalize the created
path with `cleanPath` (oracle `cleanRes` gives the OS resolution
outcome, an error code or the resolved path). Returns the trace of
filesystem actions and the result path. -/
def newTempSubDir (absoluteBaseDirPath : String) (uuid : String)
    (mkdirRes : Option Nat) (cleanRes : Except Nat String) :
    List FsAction × Except GoError String :=
  if ¬ isAbsolutePath absoluteBaseDirPath then ([], .error .errNotAbsolutePath)
  else
    let subDir := joinPath absoluteBaseDirPath uuid
    match mkdirRes with
    | some code => ([.osMkdir subDir], .error (.osError code))
    | none =>
      match cleanRes with
      | .error code => ([.osMkdir subDir, .canonicalize subDir], .error (.osError code))
      | .ok cleaned => ([.osMkdir subDir, .canonicalize subDir], .ok cleaned)

/-- Trace of wait actions the spec (§4.2, wait steps 1-3) prescribes
when every stage up to stage `j - 1` exits cleanly, written from the
spec's words for comparison with the code's trace: wait for stage 0 with
no reader close, close the write end of boundary 0, and for each stage
`i` in `1 .. j-1` wait for stage `i`, close the read end of boundary
`i - 1`, then close the write end of boundary `i`. -/
def specProcessedPrefix (j : Nat) : List WaitAction :=
  if j = 0 then []
  else
    [.waitStage 0, .closeWrite 0]
      ++ (List.range' 1 (j - 1)).flatMap
          (fun i => [.waitStage i, .closeRead (i - 1), .closeWrite i])

/-- Trace of wait actions the spec (§4.2, wait steps 1-3) prescribes for
a fully clean run of an `n`-stage pipeline, written from the spec's
words: process stages `0 .. n-2` as in `specProcessedPrefix`, then wait
for the final stage `n - 1`, then close the read end of the last
boundary `n - 2`. -/
def specCleanWaitTrace (n : Nat) : List WaitAction :=
  specProcessedPrefix (n - 1) ++ [.waitStage (n - 1), .closeRead (n - 2)]

/-- Entry a filesystem can hold at a path: a regular file, a directory,
or a symbolic link to an absolute target path. -/
inductive FsEntry where
  | file
  | dir
  | symlink (target : List String)
deriving DecidableEq, Repr

/-- Whether an entry is a symbolic link. -/
def FsEntry.isLink : FsEntry → Bool
  | .symlink _ => true
  | _ => false

/-- A path component that lexical cleaning leaves alone: not empty, not
the current-directory dot, not the parent-directory dot-dot. -/
def goodName (c : String) : Bool :=
  ¬ (c = "" ∨ c = "." ∨ c = "..")

/-- Modelled from the spec: lexical path normalization
(`filepath.Clean`, a Go standard library collaborator, is not part of
this repository; §4.1 of the spec describes it as collapsing dot and
dot-dot components and redundant separators). Absolute paths are
modelled as their component lists; the accumulator holds the cleaned
prefix in reverse, and on an absolute path a dot-dot at the root is
dropped. -/
def cleanAux : List String → List String → List String
  | stack, [] => stack.reverse
  | stack, c :: rest =>
    if c = "" ∨ c = "." then cleanAux stack rest
    else if c = ".." then cleanAux stack.tail rest
    else cleanAux (c :: stack) rest

/-- Lexical cleaning of an absolute path given as its component list. -/
def cleanComponents (p : List String) : List String :=
  cleanAux [] p

/-- Modelled from the spec: symlink-resolving canonicalization
(`filepath.EvalSymlinks`, a Go standard library collaborator, is not
part of this repository; §4.1 and the glossary describe it as resolving
symbolic links to a real, existing path, failing when a component does
not exist or a link cycle is detected). The walk keeps the already
resolved prefix, stats each next component, follows symlinks (whose
targets are modelled as absolute component lists) restarting from the
root, and spends one unit of fuel per link followed, erroring when the
link budget is exhausted, as the OS does on link cycles. -/
def walkSymlinks (fs : List String → Option FsEntry) :
    Nat → List String → List String → Except GoError (List String)
  | _, resolved, [] => .ok resolved
  | fuel, resolved, c :: rest =>
    match fs (resolved ++ [c]) with
    | none => .error (.osError 1)
    | some .file => walkSymlinks fs fuel (resolved ++ [c]) rest
    | some .dir => walkSymlinks fs fuel (resolved ++ [c]) rest
    | some (.symlink target) =>
      match fuel with
      | 0 => .error (.osError 0)
      | fuel' + 1 => walkSymlinks fs fuel' [] (target ++ rest)
termination_by fuel _ rest => (fuel, rest.length)

/-- Model of `cleanPath` (osutils.go lines 361-363) over the filesystem
model: `filepath.EvalSymlinks(filepath.Clean(absolutePath))`. -/
def cleanPathFs (fs : List String → Option FsEntry) (fuel : Nat)
    (p : List String) : Except GoError (List String) :=
  walkSymlinks fs fuel [] (cleanComponents p)

/-- Well-formedness of a filesystem model: symlink targets are made of
clean components (no empty, dot, or dot-dot components). -/
def WellFormedFs (fs : List String → Option FsEntry) : Prop :=
  ∀ p t, fs p = some (.symlink t) → ∀ c ∈ t, goodName c = true

/-- A path is fully resolved in a filesystem when each of its non-empty
prefixes names an existing entry that is not a symbolic link. -/
def FullyResolved (fs : List String → Option FsEntry) (q : List String) : Prop :=
  ∀ i, i < q.length → ∃ e, fs (q.take (i + 1)) = some e ∧ e.isLink = false

/-! ## Theorems -/

/-- C6: for every absolute path, `isRegularFileExists` fails with
`NotRegularFileError` (rather than returning false without error) when
the entry exists but is not a regular file, returns true only when the
entry exists and is a regular file, and returns false without error when
no entry exists. -/
theorem isRegularFileExists_kind_check (absolutePath : String)
    (hAbs : isAbsolutePath absolutePath = true) :
    (∀ mode, mode.isRegular = false →
      isRegularFileExists absolutePath (.found mode) =
        (false, some .errNotRegularFile)) ∧
    (∀ st, (isRegularFileExists absolutePath st).1 = true →
      st = .found .regular) ∧
    isRegularFileExists absolutePath .notFound = (false, none) := by
  refine ⟨?_, ?_, ?_⟩
  · intro mode hmode
    simp [isRegularFileExists, hAbs, stat, hmode]
  · intro st h
    cases st with
    | found mode =>
      cases mode <;> simp_all [isRegularFileExists, stat, FileMode.isRegular]
    | notFound => simp_all [isRegularFileExists, stat]
    | failed code => simp_all [isRegularFileExists, stat]
  · simp [isRegularFileExists, hAbs, stat]

/-- Witness for C6 at a concrete directory path. -/
theorem isRegularFileExists_kind_check_witness :
    isRegularFileExists "/d" (.found .dir) = (false, some .errNotRegularFile) :=
  (isRegularFileExists_kind_check "/d" (by decide)).1 .dir rfl

/-- C8: `open` on an absolute path whose entry is absent fails with
`FileDoesNotExistError`, performing exactly one stat and never reaching
the underlying `os.Open` call, whatever that call would have
returned. -/
theorem openFile_checks_absence_first (absolutePath : String) (openRes : Option Nat)
    (hAbs : isAbsolutePath absolutePath = true) :
    openFile absolutePath .notFound openRes =
      ([.statOf absolutePath], some .errFileDoesNotExist) ∧
    FsAction.osOpen absolutePath ∉ (openFile absolutePath .notFound openRes).1 := by
  have h : openFile absolutePath .notFound openRes =
      ([.statOf absolutePath], some .errFileDoesNotExist) := by
    simp [openFile, isFileExists, hAbs, stat]
  refine ⟨h, ?_⟩
  rw [h]
  simp

/-- Witness for C8 at a concrete absent path. -/
theorem openFile_checks_absence_first_witness :
    openFile "/a/b" .notFound (some 3) =
      ([.statOf "/a/b"], some .errFileDoesNotExist) :=
  (openFile_checks_absence_first "/a/b" (some 3) (by decide)).1

/-- C5: `newTempSubDir` fails with `NotAbsolutePathError` on a
non-absolute base and performs nothing; on an absolute base it first
creates the directory named by the fresh UUID under the base, and only
after a successful creation canonicalizes the created path and returns
the canonicalized result. -/
theorem newTempSubDir_creates_then_canonicalizes (base uuid : String)
    (mkdirRes : Option Nat) (cleanRes : Except Nat String) :
    (isAbsolutePath base = false →
      newTempSubDir base uuid mkdirRes cleanRes = ([], .error .errNotAbsolutePath)) ∧
    (isAbsolutePath base = true → ∀ code, mkdirRes = some code →
      newTempSubDir base uuid mkdirRes cleanRes =
        ([.osMkdir (joinPath base uuid)], .error (.osError code))) ∧
    (isAbsolutePath base = true → mkdirRes = none →
      ∀ cleaned, cleanRes = .ok cleaned →
        newTempSubDir base uuid mkdirRes cleanRes =
          ([.osMkdir (joinPath base uuid), .canonicalize (joinPath base uuid)],
            .ok cleaned)) := by
  refine ⟨?_, ?_, ?_⟩
  · intro h
    simp [newTempSubDir, h]
  · intro h code hcode
    simp [newTempSubDir, h, hcode]
  · intro h hmk cleaned hclean
    simp [newTempSubDir, h, hmk, hclean]

/-- Witness for C5 at concrete inputs. -/
theorem newTempSubDir_creates_then_canonicalizes_witness :
    newTempSubDir "/tmp/base" "u1" none (.ok "/tmp/base/u1") =
      ([.osMkdir "/tmp/base/u1", .canonicalize "/tmp/base/u1"],
        .ok "/tmp/base/u1") := by
  have h := (newTempSubDir_creates_then_canonicalizes "/tmp/base" "u1" none
    (.ok "/tmp/base/u1")).2.2 (by decide) rfl "/tmp/base/u1" rfl
  simpa [joinPath] using h

/-- Helper: the per-stage validation loop never reports a non-absolute
working directory when every stage's directory field is empty. -/
theorem validateStages_emptyDirs_ne_notAbsolute (l : List PipeCmd)
    (h : ∀ c ∈ l, c.absoluteDir = "") :
    validateStages l ≠ some .errNotAbsolutePath := by
  induction l with
  | nil => simp [validateStages]
  | cons c rest ih =>
    have hc : c.absoluteDir = "" := h c (by simp)
    have hrest := ih (fun c' hc' => h c' (by simp [hc']))
    cases hargs : c.args with
    | none => simp [validateStages, stageValidationError, hargs]
    | some args =>
      by_cases hlen : args.length = 0
      · simp [validateStages, stageValidationError, hargs, hlen]
      · simpa [validateStages, stageValidationError, hargs, hlen, hc] using hrest

/-- Helper: the start loop only ever reports opaque OS errors. -/
theorem startLoop_error_osError (numCmds : Nat) (startRes : Nat → Option Nat) :
    ∀ i e, (startLoop numCmds startRes i).2 = some e → ∃ code, e = .osError code := by
  intro i
  induction i using startLoop.induct numCmds startRes with
  | case1 i hlt code heq =>
    intro e h
    rw [startLoop.eq_def] at h
    simp [hlt, heq] at h
    exact ⟨code, h.symm⟩
  | case2 i hlt heq ih =>
    intro e h
    rw [startLoop.eq_def] at h
    simp [hlt, heq] at h
    exact ih e h
  | case3 i hlt =>
    intro e h
    rw [startLoop.eq_def] at h
    simp [hlt] at h

/-- C10: an empty working-directory field is treated as unset: a command
with an empty directory never makes `execute` return
`NotAbsolutePathError`, its descriptor carries the empty directory, a
pipeline stage with an empty directory never trips the per-stage
directory validation, its descriptor carries the empty directory, and a
pipeline all of whose stages have empty directories never makes
`executePiped` return `NotAbsolutePathError`. -/
theorem emptyDir_means_inherit (cmd : Cmd) (pipeCmd : PipeCmd)
    (startRes : Option Nat) (l : List PipeCmd) (pipedStartRes : Nat → Option Nat)
    (hcmd : cmd.absoluteDir = "") (hpipe : pipeCmd.absoluteDir = "")
    (hl : ∀ c ∈ l, c.absoluteDir = "") :
    execute cmd startRes ≠ .error .errNotAbsolutePath ∧
    (execCmdOf cmd).dir = "" ∧
    stageValidationError pipeCmd ≠ some .errNotAbsolutePath ∧
    (execPipeCmd pipeCmd).dir = "" ∧
    (executePiped ⟨some l⟩ pipedStartRes).2 ≠ .error .errNotAbsolutePath := by
  refine ⟨?_, by simp [execCmdOf, hcmd], ?_, by simp [execPipeCmd, hpipe], ?_⟩
  · cases hargs : cmd.args with
    | none => simp [execute, hargs]
    | some args =>
      by_cases hlen : args.length = 0
      · simp [execute, hargs, hlen]
      · cases hstart : startRes <;> simp [execute, hargs, hlen, hcmd, hstart]
  · cases hargs : pipeCmd.args with
    | none => simp [stageValidationError, hargs]
    | some args =>
      by_cases hlen : args.length = 0
      · simp [stageValidationError, hargs, hlen]
      · simp [stageValidationError, hargs, hlen, hpipe]
  · by_cases h0 : l.length = 0
    · simp [executePiped, h0]
    · by_cases h1 : l.length ≤ 1
      · simp [executePiped, h0, h1]
      · cases hval : validateStages l with
        | some e =>
          have hne := validateStages_emptyDirs_ne_notAbsolute l hl
          rw [hval] at hne
          have hred : executePiped ⟨some l⟩ pipedStartRes = ([], .error e) := by
            simp [executePiped, h0, h1, hval]
          rw [hred]
          intro hcontra
          injection hcontra with h'
          exact hne (by rw [h'])
        | none =>
          cases hres : (startLoop l.length pipedStartRes 0).2 with
          | none => simp [executePiped, h0, h1, hval, hres]
          | some e =>
            obtain ⟨code, rfl⟩ := startLoop_error_osError l.length pipedStartRes 0 e hres
            simp [executePiped, h0, h1, hval, hres]

/-- Witness for C10 at concrete inputs. -/
theorem emptyDir_means_inherit_witness :
    execute ⟨some ["ls"], "", []⟩ none ≠ .error .errNotAbsolutePath ∧
    (execPipeCmd ⟨some ["wc"], "", []⟩).dir = "" :=
  ⟨(emptyDir_means_inherit ⟨some ["ls"], "", []⟩ ⟨some ["wc"], "", []⟩ none []
      (fun _ => none) rfl rfl (by simp)).1,
   (emptyDir_means_inherit ⟨some ["ls"], "", []⟩ ⟨some ["wc"], "", []⟩ none []
      (fun _ => none) rfl rfl (by simp)).2.2.2.1⟩

/-- Helper: when every stage's validation yields either no error or one
fixed error, and some stage yields that error, the loop reports it. -/
theorem validateStages_uniform (l : List PipeCmd) (e₀ : GoError)
    (hall : ∀ c ∈ l, stageValidationError c = none ∨ stageValidationError c = some e₀)
    (hex : ∃ c ∈ l, stageValidationError c = some e₀) :
    validateStages l = some e₀ := by
  induction l with
  | nil =>
    obtain ⟨c, hc, _⟩ := hex
    simp at hc
  | cons c rest ih =>
    rcases hall c (by simp) with hnone | hsome
    · have hgoal : validateStages rest = some e₀ := by
        apply ih
        · intro c' hc'
          exact hall c' (by simp [hc'])
        · obtain ⟨c', hc', he'⟩ := hex
          rcases List.mem_cons.mp hc' with rfl | hmem
          · rw [hnone] at he'
            cases he'
          · exact ⟨c', hmem, he'⟩
      simpa [validateStages, hnone] using hgoal
    · simp [validateStages, hsome]

/-- C3: `executePiped` validates before any process is started: an empty
stage list yields `EmptyError`, a single-stage list yields
`NotMultipleCommandsError`, a present-but-empty argument vector in some
stage (all else valid) yields `EmptyError`, and a non-absolute
non-empty working directory in some stage (all argument vectors valid)
yields `NotAbsolutePathError`; in every such case the action trace is
empty, so no pipe was allocated and no process was started. -/
theorem executePiped_failfast_validation (l : List PipeCmd)
    (startRes : Nat → Option Nat) :
    (l.length = 0 → executePiped ⟨some l⟩ startRes = ([], .error .errEmpty)) ∧
    (l.length = 1 →
      executePiped ⟨some l⟩ startRes = ([], .error .errNotMultipleCommands)) ∧
    (2 ≤ l.length → (∃ c ∈ l, c.args = some []) → (∀ c ∈ l, c.args ≠ none) →
      (∀ c ∈ l, c.absoluteDir = "" ∨ isAbsolutePath c.absoluteDir = true) →
      executePiped ⟨some l⟩ startRes = ([], .error .errEmpty)) ∧
    (2 ≤ l.length →
      (∃ c ∈ l, c.absoluteDir ≠ "" ∧ isAbsolutePath c.absoluteDir = false) →
      (∀ c ∈ l, ∃ args, c.args = some args ∧ args ≠ []) →
      executePiped ⟨some l⟩ startRes = ([], .error .errNotAbsolutePath)) := by
  refine ⟨?_, ?_, ?_, ?_⟩
  · intro h0
    simp [executePiped, h0]
  · intro h1
    simp [executePiped, h1]
  · intro h2 hex hnonnil hdirs
    have hval : validateStages l = some .errEmpty := by
      apply validateStages_uniform
      · intro c hc
        cases hargs : c.args with
        | none => exact absurd hargs (hnonnil c hc)
        | some args =>
          by_cases hlen : args.length = 0
          · right
            simp [stageValidationError, hargs, hlen]
          · left
            rcases hdirs c hc with hdir | hdir <;>
              simp [stageValidationError, hargs, hlen, hdir]
      · obtain ⟨c, hc, hargs⟩ := hex
        exact ⟨c, hc, by simp [stageValidationError, hargs]⟩
    simp [executePiped, show ¬(l.length = 0) by omega,
      show ¬(l.length ≤ 1) by omega, hval]
  · intro h2 hex hargsok
    have hval : validateStages l = some .errNotAbsolutePath := by
      apply validateStages_uniform
      · intro c hc
        obtain ⟨args, hargs, hne⟩ := hargsok c hc
        have hlen : ¬ args.length = 0 := by
          simpa [List.length_eq_zero] using hne
        by_cases hdir : c.absoluteDir ≠ "" ∧ ¬ isAbsolutePath c.absoluteDir
        · right
          simp [stageValidationError, hargs, hlen, hdir]
        · left
          simp [stageValidationError, hargs, hlen, hdir]
          intro hemp
          by_contra habs
          exact hdir ⟨hemp, habs⟩
      · obtain ⟨c, hc, hdir, habs⟩ := hex
        obtain ⟨args, hargs, hne⟩ := hargsok c hc
        have hlen : ¬ args.length = 0 := by
          simpa [List.length_eq_zero] using hne
        refine ⟨c, hc, ?_⟩
        simp [stageValidationError, hargs, hlen, hdir, habs]
    simp [executePiped, show ¬(l.length = 0) by omega,
      show ¬(l.length ≤ 1) by omega, hval]

/-- Witness for C3 at concrete pipelines. -/
theorem executePiped_failfast_validation_witness :
    executePiped ⟨some []⟩ (fun _ => none) = ([], .error .errEmpty) ∧
    executePiped ⟨some [⟨some ["a"], "", []⟩]⟩ (fun _ => none) =
      ([], .error .errNotMultipleCommands) ∧
    executePiped ⟨some [⟨some ["a"], "", []⟩, ⟨some [], "", []⟩]⟩ (fun _ => none) =
      ([], .error .errEmpty) ∧
    executePiped ⟨some [⟨some ["a"], "", []⟩, ⟨some ["b"], "rel", []⟩]⟩
        (fun _ => none) =
      ([], .error .errNotAbsolutePath) := by
  refine ⟨?_, ?_, ?_, ?_⟩
  · exact (executePiped_failfast_validation [] (fun _ => none)).1 rfl
  · exact (executePiped_failfast_validation [⟨some ["a"], "", []⟩]
      (fun _ => none)).2.1 rfl
  · exact (executePiped_failfast_validation
      [⟨some ["a"], "", []⟩, ⟨some [], "", []⟩] (fun _ => none)).2.2.1
      (by decide) (by decide) (by decide) (by decide)
  · exact (executePiped_failfast_validation
      [⟨some ["a"], "", []⟩, ⟨some ["b"], "rel", []⟩] (fun _ => none)).2.2.2
      (by decide) (by decide) (by decide)

/-- Helper: the stage validation loop reports the error of the first
stage whose validation fails, in list order. -/
theorem validateStages_find (l : List PipeCmd) (c : PipeCmd)
    (h : l.find? (fun c' => (stageValidationError c').isSome) = some c) :
    validateStages l = stageValidationError c := by
  induction l with
  | nil => simp at h
  | cons c₀ rest ih =>
    cases hv : stageValidationError c₀ with
    | some e =>
      have hfind : (c₀ :: rest).find?
          (fun c' => (stageValidationError c').isSome) = some c₀ := by
        simp [List.find?_cons, hv]
      rw [hfind] at h
      injection h with h
      subst h
      simp [validateStages, hv]
    | none =>
      have hfind : (c₀ :: rest).find?
          (fun c' => (stageValidationError c').isSome) =
          rest.find? (fun c' => (stageValidationError c').isSome) := by
        simp [List.find?_cons, hv]
      rw [hfind] at h
      simpa [validateStages, hv] using ih h

/-- C9: the stage-count checks of `executePiped` run before any
per-stage check, so a one-stage pipeline yields
`NotMultipleCommandsError` whatever is wrong with its single stage, and
for longer pipelines the reported per-stage error is that of the first
offending stage in list order. -/
theorem executePiped_count_before_stage_checks (l : List PipeCmd)
    (badStage : PipeCmd) (startRes : Nat → Option Nat) :
    executePiped ⟨some [badStage]⟩ startRes =
      ([], .error .errNotMultipleCommands) ∧
    (2 ≤ l.length →
      ∀ c, l.find? (fun c' => (stageValidationError c').isSome) = some c →
        ∃ e, stageValidationError c = some e ∧
          executePiped ⟨some l⟩ startRes = ([], .error e)) := by
  constructor
  · simp [executePiped]
  · intro h2 c hfind
    have hsome : (stageValidationError c).isSome := by
      simpa using List.find?_some hfind
    obtain ⟨e, he⟩ := Option.isSome_iff_exists.mp hsome
    refine ⟨e, he, ?_⟩
    have hval : validateStages l = some e := by
      rw [validateStages_find l c hfind, he]
    simp [executePiped, show ¬(l.length = 0) by omega,
      show ¬(l.length ≤ 1) by omega, hval]

/-- Witness for C9: a one-stage pipeline with a nil argument vector and
non-absolute directory still reports `NotMultipleCommandsError`, and in
a two-stage pipeline whose stages are both offending the first stage's
error is reported. -/
theorem executePiped_count_before_stage_checks_witness :
    executePiped ⟨some [⟨none, "rel", []⟩]⟩ (fun _ => none) =
      ([], .error .errNotMultipleCommands) ∧
    executePiped ⟨some [⟨some ["a"], "rel", []⟩, ⟨none, "", []⟩]⟩ (fun _ => none) =
      ([], .error .errNotAbsolutePath) := by
  constructor
  · exact (executePiped_count_before_stage_checks [] ⟨none, "rel", []⟩
      (fun _ => none)).1
  · obtain ⟨e, he, hrun⟩ := (executePiped_count_before_stage_checks
      [⟨some ["a"], "rel", []⟩, ⟨none, "", []⟩] ⟨none, "", []⟩
      (fun _ => none)).2 (by decide) ⟨some ["a"], "rel", []⟩ (by decide)
    have : e = .errNotAbsolutePath := by
      have : stageValidationError ⟨some ["a"], "rel", []⟩ =
          some .errNotAbsolutePath := by decide
      rw [this] at he
      injection he with h
      exact h.symm
    rw [← this]
    exact hrun

/-- Pointwise reading of `setAt`. -/
theorem setAt_eq {α : Type} (f : Nat → Option α) (i : Nat) (v : α) (j : Nat) :
    setAt f i v j = if j = i then some v else f j := rfl

/-- Helper: the wiring loop is the identity once the index reaches the
last boundary. -/
theorem wireLoop_stop (numCmds i reader writer : Nat) (st : Wiring)
    (h : ¬ i < numCmds - 1) : wireLoop numCmds i reader writer st = st := by
  rw [wireLoop.eq_def]
  simp [h]

/-- Helper (loop invariant of the wiring loop): entering iteration `i`
with the in-scope pipe equal to `i` and `i + 1` pipes allocated, the
loop finishes with `numCmds - 1` pipes allocated, appends allocations
`i+1 .. numCmds-2` to the trace, assigns stage stdout `pipeWrite j` and
external stderr for stages `i .. numCmds-2`, stdin `pipeRead (j-1)` for
stages `i+1 .. numCmds-1`, fills boundary slots `i+1 .. numCmds-2` with
their own pipe ids, and leaves all other indices untouched. -/
theorem wireLoop_spec (numCmds : Nat) (h2 : 2 ≤ numCmds) :
    ∀ k i st, i + k = numCmds - 2 → st.pipesAllocated = i + 1 →
      ((wireLoop numCmds i i i st).pipesAllocated = numCmds - 1) ∧
      ((wireLoop numCmds i i i st).trace =
        st.trace ++ (List.range' (i + 1) (numCmds - 2 - i)).map .pipeAlloc) ∧
      (∀ j, (wireLoop numCmds i i i st).stdoutOf j =
        if i ≤ j ∧ j ≤ numCmds - 2 then some (.pipeWrite j) else st.stdoutOf j) ∧
      (∀ j, (wireLoop numCmds i i i st).stderrOf j =
        if i ≤ j ∧ j ≤ numCmds - 2 then some .extStderr else st.stderrOf j) ∧
      (∀ j, (wireLoop numCmds i i i st).stdinOf j =
        if i + 1 ≤ j ∧ j ≤ numCmds - 1 then some (.pipeRead (j - 1))
        else st.stdinOf j) ∧
      (∀ j, (wireLoop numCmds i i i st).readerSlot j =
        if i + 1 ≤ j ∧ j ≤ numCmds - 2 then some j else st.readerSlot j) ∧
      (∀ j, (wireLoop numCmds i i i st).writerSlot j =
        if i + 1 ≤ j ∧ j ≤ numCmds - 2 then some j else st.writerSlot j) := by
  intro k
  induction k with
  | zero =>
    intro i st hik hpa
    have hi : i = numCmds - 2 := by omega
    have hlt : i < numCmds - 1 := by omega
    have hzero : numCmds - 2 - i = 0 := by omega
    have hunfold : wireLoop numCmds i i i st =
        { st with
          stdoutOf := setAt st.stdoutOf i (.pipeWrite i)
          stderrOf := setAt st.stderrOf i .extStderr
          stdinOf := setAt st.stdinOf (i + 1) (.pipeRead i) } := by
      rw [wireLoop.eq_def]
      simp only [dif_pos hlt, if_neg (show ¬ i ≠ numCmds - 2 by omega)]
      exact wireLoop_stop _ _ _ _ _ (by omega)
    rw [hunfold]
    refine ⟨by dsimp only; omega, ?_, ?_, ?_, ?_, ?_, ?_⟩
    · simp [hzero]
    · intro j
      simp only [setAt_eq]
      split_ifs <;> simp_all <;> omega
    · intro j
      simp only [setAt_eq]
      split_ifs <;> simp_all <;> omega
    · intro j
      simp only [setAt_eq]
      split_ifs <;> simp_all <;> omega
    · intro j
      split_ifs <;> simp_all <;> omega
    · intro j
      split_ifs <;> simp_all <;> omega
  | succ k ih =>
    intro i st hik hpa
    have hlt : i < numCmds - 1 := by omega
    have hne : i ≠ numCmds - 2 := by omega
    have hunfold : wireLoop numCmds i i i st =
        wireLoop numCmds (i + 1) (i + 1) (i + 1)
          { stdinOf := setAt st.stdinOf (i + 1) (.pipeRead i)
            stdoutOf := setAt st.stdoutOf i (.pipeWrite i)
            stderrOf := setAt st.stderrOf i .extStderr
            readerSlot := setAt st.readerSlot (i + 1) (i + 1)
            writerSlot := setAt st.writerSlot (i + 1) (i + 1)
            pipesAllocated := i + 1 + 1
            trace := st.trace ++ [.pipeAlloc (i + 1)] } := by
      rw [wireLoop.eq_def]
      simp [hlt, hne, hpa]
    rw [hunfold]
    obtain ⟨hpipes, htrace, hstdout, hstderr, hstdin, hreader, hwriter⟩ :=
      ih (i + 1)
        { stdinOf := setAt st.stdinOf (i + 1) (.pipeRead i)
          stdoutOf := setAt st.stdoutOf i (.pipeWrite i)
          stderrOf := setAt st.stderrOf i .extStderr
          readerSlot := setAt st.readerSlot (i + 1) (i + 1)
          writerSlot := setAt st.writerSlot (i + 1) (i + 1)
          pipesAllocated := i + 1 + 1
          trace := st.trace ++ [.pipeAlloc (i + 1)] }
        (by omega) rfl
    refine ⟨hpipes, ?_, ?_, ?_, ?_, ?_, ?_⟩
    · rw [htrace]
      have hsplit : numCmds - 2 - i = (numCmds - 2 - (i + 1)) + 1 := by omega
      rw [hsplit, List.range'_succ]
      simp
    · intro j
      rw [hstdout j]
      dsimp only
      simp only [setAt_eq]
      by_cases hc : i + 1 ≤ j ∧ j ≤ numCmds - 2
      · rw [if_pos hc, if_pos (by omega)]
      · rw [if_neg hc]
        by_cases hji : j = i
        · subst hji
          rw [if_pos rfl, if_pos (by omega)]
        · rw [if_neg hji, if_neg (by omega)]
    · intro j
      rw [hstderr j]
      dsimp only
      simp only [setAt_eq]
      by_cases hc : i + 1 ≤ j ∧ j ≤ numCmds - 2
      · rw [if_pos hc, if_pos (by omega)]
      · rw [if_neg hc]
        by_cases hji : j = i
        · subst hji
          rw [if_pos rfl, if_pos (by omega)]
        · rw [if_neg hji, if_neg (by omega)]
    · intro j
      rw [hstdin j]
      dsimp only
      simp only [setAt_eq]
      by_cases hc : i + 1 + 1 ≤ j ∧ j ≤ numCmds - 1
      · rw [if_pos hc, if_pos (by omega)]
      · rw [if_neg hc]
        by_cases hji : j = i + 1
        · subst hji
          rw [if_pos rfl, if_pos (by omega)]
          have hcancel : i + 1 - 1 = i := by omega
          rw [hcancel]
        · rw [if_neg hji, if_neg (by omega)]
    · intro j
      rw [hreader j]
      dsimp only
      simp only [setAt_eq]
      by_cases hc : i + 1 + 1 ≤ j ∧ j ≤ numCmds - 2
      · rw [if_pos hc, if_pos (by omega)]
      · rw [if_neg hc]
        by_cases hji : j = i + 1
        · subst hji
          rw [if_pos rfl, if_pos (by omega)]
        · rw [if_neg hji, if_neg (by omega)]
    · intro j
      rw [hwriter j]
      dsimp only
      simp only [setAt_eq]
      by_cases hc : i + 1 + 1 ≤ j ∧ j ≤ numCmds - 2
      · rw [if_pos hc, if_pos (by omega)]
      · rw [if_neg hc]
        by_cases hji : j = i + 1
        · subst hji
          rw [if_pos rfl, if_pos (by omega)]
        · rw [if_neg hji, if_neg (by omega)]

/-- C2: for every pipeline of `numCmds ≥ 2` stages, the wiring phase
allocates exactly `numCmds - 1` pipes (both by count and by the
allocation trace), stores pipe `i` in boundary slot `i`, attaches stage
`i`'s stdout to pipe `i`'s write end and stage `i+1`'s stdin to pipe
`i`'s read end for every boundary `i`, attaches stage 0's stdin to the
external stdin and stage `numCmds-1`'s stdout to the external stdout,
and attaches every stage's stderr to the external stderr. -/
theorem wire_boundaries (numCmds : Nat) (h2 : 2 ≤ numCmds) :
    (wire numCmds).pipesAllocated = numCmds - 1 ∧
    (wire numCmds).trace = (List.range (numCmds - 1)).map .pipeAlloc ∧
    (∀ i, i < numCmds - 1 →
      (wire numCmds).readerSlot i = some i ∧
      (wire numCmds).writerSlot i = some i ∧
      (wire numCmds).stdoutOf i = some (.pipeWrite i) ∧
      (wire numCmds).stdinOf (i + 1) = some (.pipeRead i)) ∧
    (wire numCmds).stdinOf 0 = some .extStdin ∧
    (wire numCmds).stdoutOf (numCmds - 1) = some .extStdout ∧
    (∀ i, i < numCmds → (wire numCmds).stderrOf i = some .extStderr) := by
  obtain ⟨hpipes, htrace, hstdout, hstderr, hstdin, hreader, hwriter⟩ :=
    wireLoop_spec numCmds h2 (numCmds - 2) 0 wireInit (by omega) rfl
  simp only [wire]
  refine ⟨hpipes, ?_, ?_, ?_, ?_, ?_⟩
  · rw [htrace]
    have h1 : numCmds - 1 = (numCmds - 2) + 1 := by omega
    rw [List.range_eq_range', h1, List.range'_succ]
    simp [wireInit]
  · intro i hi
    refine ⟨?_, ?_, ?_, ?_⟩
    · rw [hreader i]
      by_cases h0 : i = 0
      · subst h0
        rw [if_neg (by omega)]
        rfl
      · rw [if_pos (by omega)]
    · rw [hwriter i]
      by_cases h0 : i = 0
      · subst h0
        rw [if_neg (by omega)]
        rfl
      · rw [if_pos (by omega)]
    · rw [setAt_eq, if_neg (by omega), hstdout i, if_pos (by omega)]
    · rw [hstdin (i + 1), if_pos (by omega)]
      simp
  · rw [hstdin 0, if_neg (by omega)]
    rfl
  · rw [setAt_eq, if_pos rfl]
  · intro i hi
    rw [setAt_eq]
    by_cases hlast : i = numCmds - 1
    · rw [if_pos hlast]
    · rw [if_neg hlast, hstderr i, if_pos (by omega)]

/-- Witness for C2 at a three-stage pipeline. -/
theorem wire_boundaries_witness :
    (wire 3).pipesAllocated = 2 ∧
    (wire 3).stdoutOf 1 = some (.pipeWrite 1) ∧
    (wire 3).stdinOf 2 = some (.pipeRead 1) ∧
    (wire 3).stdinOf 0 = some .extStdin ∧
    (wire 3).stdoutOf 2 = some .extStdout :=
  ⟨(wire_boundaries 3 (by omega)).1,
   ((wire_boundaries 3 (by omega)).2.2.1 1 (by omega)).2.2.1,
   ((wire_boundaries 3 (by omega)).2.2.1 1 (by omega)).2.2.2,
   (wire_boundaries 3 (by omega)).2.2.2.1,
   (wire_boundaries 3 (by omega)).2.2.2.2.1⟩

/-- Helper: the trace of the wiring phase is exactly the allocation of
pipes `0 .. numCmds-2`, in order. -/
theorem wire_trace (numCmds : Nat) (h2 : 2 ≤ numCmds) :
    (wire numCmds).trace = (List.range (numCmds - 1)).map .pipeAlloc := by
  obtain ⟨-, htrace, -, -, -, -, -⟩ :=
    wireLoop_spec numCmds h2 (numCmds - 2) 0 wireInit (by omega) rfl
  simp only [wire]
  rw [htrace]
  have h1 : numCmds - 1 = (numCmds - 2) + 1 := by omega
  rw [List.range_eq_range', h1, List.range'_succ]
  simp [wireInit]

/-- Helper: when every stage from `i` on starts cleanly, the start loop
attempts stages `i .. numCmds-1` in order and reports no error. -/
theorem startLoop_clean (numCmds : Nat) (startRes : Nat → Option Nat) :
    ∀ i, (∀ m, i ≤ m → m < numCmds → startRes m = none) →
      startLoop numCmds startRes i =
        ((List.range' i (numCmds - i)).map .startAttempt, none) := by
  intro i
  induction i using startLoop.induct numCmds startRes with
  | case1 i hlt code heq =>
    intro hall
    rw [hall i le_rfl hlt] at heq
    cases heq
  | case2 i hlt heq ih =>
    intro hall
    rw [startLoop.eq_def]
    simp only [dif_pos hlt, heq]
    rw [ih (fun m hm hmn => hall m (by omega) hmn)]
    have hr : numCmds - i = (numCmds - (i + 1)) + 1 := by omega
    rw [hr, List.range'_succ]
    simp
  | case3 i hlt =>
    intro hall
    rw [startLoop.eq_def]
    simp only [dif_neg hlt]
    have hz : numCmds - i = 0 := by omega
    simp [hz]

/-- Helper: when stage `j` is the first stage from `i` on whose start
fails, the start loop attempts exactly stages `i .. j` in order and
reports stage `j`'s error. -/
theorem startLoop_first_failure (numCmds : Nat) (startRes : Nat → Option Nat)
    (j failCode : Nat) :
    ∀ i, i ≤ j → j < numCmds → startRes j = some failCode →
      (∀ m, i ≤ m → m < j → startRes m = none) →
      startLoop numCmds startRes i =
        ((List.range' i (j + 1 - i)).map .startAttempt,
          some (.osError failCode)) := by
  intro i
  induction i using startLoop.induct numCmds startRes with
  | case1 i hlt code heq =>
    intro hij hjn hj hall
    have hii : i = j := by
      by_contra hne
      rw [hall i le_rfl (by omega)] at heq
      cases heq
    subst hii
    rw [hj] at heq
    injection heq with hcode
    subst hcode
    rw [startLoop.eq_def]
    simp only [dif_pos hlt, hj]
    have h1 : i + 1 - i = 1 := by omega
    rw [h1]
    simp [List.range']
  | case2 i hlt heq ih =>
    intro hij hjn hj hall
    have hne : i ≠ j := by
      intro h
      subst h
      rw [hj] at heq
      cases heq
    rw [startLoop.eq_def]
    simp only [dif_pos hlt, heq]
    rw [ih (by omega) hjn hj (fun m hm hmj => hall m (by omega) hmj)]
    have hr : j + 1 - i = (j + 1 - (i + 1)) + 1 := by omega
    rw [hr, List.range'_succ]
    simp
  | case3 i hlt =>
    intro hij hjn hj hall
    exfalso
    omega

/-- Helper: every action the start loop records is a start attempt. -/
theorem startLoop_trace_attempts (numCmds : Nat) (startRes : Nat → Option Nat) :
    ∀ i a, a ∈ (startLoop numCmds startRes i).1 → ∃ m, a = .startAttempt m := by
  intro i
  induction i using startLoop.induct numCmds startRes with
  | case1 i hlt code heq =>
    intro a ha
    rw [startLoop.eq_def] at ha
    simp [hlt, heq] at ha
    exact ⟨i, ha⟩
  | case2 i hlt heq ih =>
    intro a ha
    rw [startLoop.eq_def] at ha
    simp only [dif_pos hlt, heq] at ha
    rcases List.mem_cons.mp ha with rfl | ha'
    · exact ⟨i, rfl⟩
    · exact ih a ha'
  | case3 i hlt =>
    intro a ha
    rw [startLoop.eq_def] at ha
    simp [hlt] at ha

/-- C4: once validation passes, `executePiped`'s trace is all the pipe
allocations followed by all the start attempts (no stage is started
before the wiring is complete); starts happen in index order; when stage
`j` is the first whose start fails, exactly stages `0 .. j` were
attempted, the error is surfaced, and no subsequent stage is attempted;
when every start succeeds all stages are attempted and the wait handle
is returned; and no kill of an already-started stage ever appears in the
trace. -/
theorem executePiped_start_phase (l : List PipeCmd) (startRes : Nat → Option Nat)
    (h2 : 2 ≤ l.length) (hv : validateStages l = none) :
    ((executePiped ⟨some l⟩ startRes).1 =
      (wire l.length).trace ++ (startLoop l.length startRes 0).1) ∧
    ((wire l.length).trace = (List.range (l.length - 1)).map .pipeAlloc) ∧
    (∀ a ∈ (startLoop l.length startRes 0).1, ∃ m, a = .startAttempt m) ∧
    (∀ j failCode, j < l.length → startRes j = some failCode →
      (∀ m, m < j → startRes m = none) →
      (startLoop l.length startRes 0).1 =
        (List.range (j + 1)).map .startAttempt ∧
      (executePiped ⟨some l⟩ startRes).2 = .error (.osError failCode)) ∧
    ((∀ m, m < l.length → startRes m = none) →
      (startLoop l.length startRes 0).1 =
        (List.range l.length).map .startAttempt ∧
      (executePiped ⟨some l⟩ startRes).2 = .ok (l.map execPipeCmd, l.length)) ∧
    (∀ s, LaunchAction.kill s ∉ (executePiped ⟨some l⟩ startRes).1) := by
  have h0 : ¬ l.length = 0 := by omega
  have h1 : ¬ l.length ≤ 1 := by omega
  have htr : (executePiped ⟨some l⟩ startRes).1 =
      (wire l.length).trace ++ (startLoop l.length startRes 0).1 := by
    cases hres : (startLoop l.length startRes 0).2 with
    | none => simp [executePiped, h0, h1, hv, hres]
    | some e => simp [executePiped, h0, h1, hv, hres]
  refine ⟨htr, wire_trace l.length h2, startLoop_trace_attempts l.length startRes 0,
    ?_, ?_, ?_⟩
  · intro j failCode hj hfail hbefore
    have hloop := startLoop_first_failure l.length startRes j failCode 0
      (by omega) hj hfail (fun m hm hmj => hbefore m hmj)
    constructor
    · rw [hloop]
      simp [List.range_eq_range']
    · have hres : (startLoop l.length startRes 0).2 = some (.osError failCode) := by
        rw [hloop]
      simp [executePiped, h0, h1, hv, hres]
  · intro hall
    have hloop := startLoop_clean l.length startRes 0
      (fun m hm hmn => hall m hmn)
    constructor
    · rw [hloop]
      simp [List.range_eq_range']
    · have hres : (startLoop l.length startRes 0).2 = none := by
        rw [hloop]
      simp [executePiped, h0, h1, hv, hres]
  · intro s
    rw [htr]
    intro hmem
    rcases List.mem_append.mp hmem with hw | hs
    · rw [wire_trace l.length h2] at hw
      obtain ⟨m, -, hm⟩ := List.mem_map.mp hw
      cases hm
    · obtain ⟨m, hm⟩ := startLoop_trace_attempts l.length startRes 0 _ hs
      cases hm

/-- Witness for C4: a two-stage pipeline whose first stage fails to
start attempts only stage 0 and surfaces the error after wiring. -/
theorem executePiped_start_phase_witness :
    executePiped ⟨some [⟨some ["a"], "", []⟩, ⟨some ["b"], "", []⟩]⟩
        (fun i => if i = 0 then some 9 else none) =
      ([.pipeAlloc 0, .startAttempt 0], .error (.osError 9)) := by
  have h := (executePiped_start_phase [⟨some ["a"], "", []⟩, ⟨some ["b"], "", []⟩]
    (fun i => if i = 0 then some 9 else none) (by decide) (by decide)).2.2.2.1
    0 9 (by decide) rfl (fun m hm => by omega)
  have htr := (executePiped_start_phase [⟨some ["a"], "", []⟩, ⟨some ["b"], "", []⟩]
    (fun i => if i = 0 then some 9 else none) (by decide) (by decide)).1
  have hwt := (executePiped_start_phase [⟨some ["a"], "", []⟩, ⟨some ["b"], "", []⟩]
    (fun i => if i = 0 then some 9 else none) (by decide) (by decide)).2.1
  refine Prod.ext ?_ h.2
  rw [htr, hwt, h.1]
  decide

/-- Helper: from a positive index on, with all remaining stages exiting
cleanly and closes succeeding, the join loop waits each stage and closes
the previous boundary's read end and the stage's write end, in order. -/
theorem waitJoinLoop_clean (numCmds : Nat) (waitRes closeR closeW : Nat → Option Nat)
    (hcr : ∀ m, closeR m = none) (hcw : ∀ m, closeW m = none) :
    ∀ i, 1 ≤ i → (∀ m, i ≤ m → m < numCmds - 1 → waitRes m = none) →
      waitJoinLoop numCmds waitRes closeR closeW i =
        ((List.range' i (numCmds - 1 - i)).flatMap
          (fun m => [.waitStage m, .closeRead (m - 1), .closeWrite m]), none) := by
  intro i
  induction i using waitJoinLoop.induct numCmds waitRes closeR closeW with
  | case1 i hlt code heq =>
    intro h1 hall
    rw [hall i le_rfl hlt] at heq
    cases heq
  | case2 i hlt hw hne code heq =>
    intro h1 hall
    simp [hcr] at heq
  | case3 i hlt hw hne hcrn code heq =>
    intro h1 hall
    simp [hcw] at heq
  | case4 i hlt hw hne hcrn hcwn ih =>
    intro h1 hall
    rw [waitJoinLoop.eq_def]
    simp only [dif_pos hlt, hw, if_pos hne, hcrn, hcwn]
    rw [ih (by omega) (fun m hm hmn => hall m (by omega) hmn)]
    have hr : numCmds - 1 - i = (numCmds - 1 - (i + 1)) + 1 := by omega
    rw [hr, List.range'_succ]
    simp
  | case5 i hlt hw hne0 code heq =>
    intro h1 hall
    simp [hcw] at heq
  | case6 i hlt hw hne0 hcwn ih =>
    intro h1 hall
    exfalso
    simp at hne0
    omega
  | case7 i hlt =>
    intro h1 hall
    rw [waitJoinLoop.eq_def]
    simp only [dif_neg hlt]
    have hz : numCmds - 1 - i = 0 := by omega
    simp [hz]

/-- Helper: the join loop from index 0 in a fully clean run. -/
theorem waitJoinLoop_clean_zero (numCmds : Nat)
    (waitRes closeR closeW : Nat → Option Nat)
    (hcr : ∀ m, closeR m = none) (hcw : ∀ m, closeW m = none)
    (h2 : 2 ≤ numCmds) (hall : ∀ m, m < numCmds - 1 → waitRes m = none) :
    waitJoinLoop numCmds waitRes closeR closeW 0 =
      ([.waitStage 0, .closeWrite 0] ++
        (List.range' 1 (numCmds - 2)).flatMap
          (fun m => [.waitStage m, .closeRead (m - 1), .closeWrite m]), none) := by
  have hlt : 0 < numCmds - 1 := by omega
  rw [waitJoinLoop.eq_def]
  simp only [dif_pos hlt, hall 0 hlt, hcw, if_neg (show ¬ (0 : Nat) ≠ 0 by omega)]
  rw [waitJoinLoop_clean numCmds waitRes closeR closeW hcr hcw 1 le_rfl
    (fun m hm hmn => hall m hmn)]
  have hr : numCmds - 1 - 1 = numCmds - 2 := by omega
  rw [hr]
  simp

/-- Helper: from a positive index on, when stage `j` is the first
remaining stage to exit abnormally, the join loop processes the stages
before `j`, waits stage `j`, and stops with its error. -/
theorem waitJoinLoop_first_failure (numCmds : Nat)
    (waitRes closeR closeW : Nat → Option Nat)
    (hcr : ∀ m, closeR m = none) (hcw : ∀ m, closeW m = none)
    (j failCode : Nat) (hj : j < numCmds - 1) (hfail : waitRes j = some failCode) :
    ∀ i, 1 ≤ i → i ≤ j → (∀ m, i ≤ m → m < j → waitRes m = none) →
      waitJoinLoop numCmds waitRes closeR closeW i =
        ((List.range' i (j - i)).flatMap
          (fun m => [.waitStage m, .closeRead (m - 1), .closeWrite m])
          ++ [.waitStage j], some (.osError failCode)) := by
  intro i
  induction i using waitJoinLoop.induct numCmds waitRes closeR closeW with
  | case1 i hlt code heq =>
    intro h1 hij hall
    have hii : i = j := by
      by_contra hne
      rw [hall i le_rfl (by omega)] at heq
      cases heq
    subst hii
    rw [hfail] at heq
    injection heq with hc
    subst hc
    rw [waitJoinLoop.eq_def]
    simp only [dif_pos hlt, hfail]
    have hz : i - i = 0 := by omega
    simp [hz]
  | case2 i hlt hw hne code heq =>
    intro h1 hij hall
    simp [hcr] at heq
  | case3 i hlt hw hne hcrn code heq =>
    intro h1 hij hall
    simp [hcw] at heq
  | case4 i hlt hw hne hcrn hcwn ih =>
    intro h1 hij hall
    have hne2 : i ≠ j := by
      intro h
      subst h
      rw [hfail] at hw
      cases hw
    rw [waitJoinLoop.eq_def]
    simp only [dif_pos hlt, hw, if_pos hne, hcrn, hcwn]
    rw [ih (by omega) (by omega) (fun m hm hmj => hall m (by omega) hmj)]
    have hr : j - i = (j - (i + 1)) + 1 := by omega
    rw [hr, List.range'_succ]
    simp
  | case5 i hlt hw hne0 code heq =>
    intro h1 hij hall
    simp [hcw] at heq
  | case6 i hlt hw hne0 hcwn ih =>
    intro h1 hij hall
    exfalso
    simp at hne0
    omega
  | case7 i hlt =>
    intro h1 hij hall
    exfalso
    omega

/-- Helper: the join loop from index 0 with a first failing stage `j`
produces exactly the clean prefix for stages before `j` followed by the
wait of stage `j`, and stops with stage `j`'s error. -/
theorem waitJoinLoop_failure_zero (numCmds : Nat)
    (waitRes closeR closeW : Nat → Option Nat)
    (hcr : ∀ m, closeR m = none) (hcw : ∀ m, closeW m = none)
    (j failCode : Nat) (h2 : 2 ≤ numCmds) (hj : j < numCmds - 1)
    (hfail : waitRes j = some failCode)
    (hbefore : ∀ m, m < j → waitRes m = none) :
    waitJoinLoop numCmds waitRes closeR closeW 0 =
      (specProcessedPrefix j ++ [.waitStage j], some (.osError failCode)) := by
  have hlt : 0 < numCmds - 1 := by omega
  by_cases hj0 : j = 0
  · subst hj0
    rw [waitJoinLoop.eq_def]
    simp only [dif_pos hlt, hfail]
    simp [specProcessedPrefix]
  · rw [waitJoinLoop.eq_def]
    simp only [dif_pos hlt, hbefore 0 (by omega), hcw,
      if_neg (show ¬ (0 : Nat) ≠ 0 by omega)]
    rw [waitJoinLoop_first_failure numCmds waitRes closeR closeW hcr hcw j failCode
      hj hfail 1 le_rfl (by omega) (fun m hm hmj => hbefore m hmj)]
    simp [specProcessedPrefix, hj0]

/-- Helper: if the join loop finishes without error, every stage it
covered exited cleanly. -/
theorem waitJoinLoop_none_implies_clean (numCmds : Nat)
    (waitRes closeR closeW : Nat → Option Nat) :
    ∀ i, (waitJoinLoop numCmds waitRes closeR closeW i).2 = none →
      ∀ m, i ≤ m → m < numCmds - 1 → waitRes m = none := by
  intro i
  induction i using waitJoinLoop.induct numCmds waitRes closeR closeW with
  | case1 i hlt code heq =>
    intro h m him hm
    rw [waitJoinLoop.eq_def] at h
    simp [hlt, heq] at h
  | case2 i hlt hw hne code heq =>
    intro h m him hm
    rw [waitJoinLoop.eq_def] at h
    simp [hlt, hw, hne, heq] at h
  | case3 i hlt hw hne hcrn code heq =>
    intro h m him hm
    rw [waitJoinLoop.eq_def] at h
    simp [hlt, hw, hne, hcrn, heq] at h
  | case4 i hlt hw hne hcrn hcwn ih =>
    intro h m him hm
    rw [waitJoinLoop.eq_def] at h
    simp [hlt, hw, hne, hcrn, hcwn] at h
    by_cases hmi : m = i
    · subst hmi
      exact hw
    · exact ih h m (by omega) hm
  | case5 i hlt hw hne0 code heq =>
    intro h m him hm
    rw [waitJoinLoop.eq_def] at h
    simp [hlt, hw, hne0, heq] at h
  | case6 i hlt hw hne0 hcwn ih =>
    intro h m him hm
    rw [waitJoinLoop.eq_def] at h
    simp [hlt, hw, hne0, hcwn] at h
    by_cases hmi : m = i
    · subst hmi
      exact hw
    · exact ih h m (by omega) hm
  | case7 i hlt =>
    intro h m him hm
    exfalso
    omega

/-- Helper: a wait of stage `k` occurs in the spec's clean prefix for
stages below `j` only when `k < j`. -/
theorem specProcessedPrefix_waits (j k : Nat) :
    WaitAction.waitStage k ∈ specProcessedPrefix j → k < j := by
  intro h
  by_cases hj : j = 0
  · subst hj
    simp [specProcessedPrefix] at h
  · simp [specProcessedPrefix, hj, List.mem_flatMap, List.mem_range'] at h
    rcases h with h0 | ⟨m, hm, hk⟩ <;> omega

/-- C1: invoking the wait handle of a `numCmds`-stage pipeline (pipe
closes succeeding, as in-memory pipe closes always do): in a clean run
the trace is exactly the spec's order — wait for stage 0 with no read
end closed, close the write end of boundary 0, for each stage `i` in
`1 .. numCmds-2` wait for stage `i`, close the read end of boundary
`i-1`, then the write end of boundary `i`, after all of those wait for
the final stage and close the read end of boundary `numCmds-2` — and no
error is returned; when stage `j < numCmds-1` is the first to exit
abnormally, the handle performs exactly the clean prefix then the wait
of stage `j`, returns stage `j`'s error immediately, and waits for no
later stage; and the handle returns success only when every stage
exited cleanly. -/
theorem waitPiped_spec (numCmds : Nat) (waitRes closeR closeW : Nat → Option Nat)
    (h2 : 2 ≤ numCmds) (hcr : ∀ m, closeR m = none)
    (hcw : ∀ m, closeW m = none) :
    ((∀ m, m < numCmds → waitRes m = none) →
      waitPiped numCmds waitRes closeR closeW =
        (specCleanWaitTrace numCmds, none)) ∧
    (∀ j failCode, j < numCmds - 1 → waitRes j = some failCode →
      (∀ m, m < j → waitRes m = none) →
      waitPiped numCmds waitRes closeR closeW =
        (specProcessedPrefix j ++ [.waitStage j], some (.osError failCode)) ∧
      (∀ k, j < k →
        WaitAction.waitStage k ∉ (waitPiped numCmds waitRes closeR closeW).1)) ∧
    ((waitPiped numCmds waitRes closeR closeW).2 = none →
      ∀ m, m < numCmds → waitRes m = none) := by
  refine ⟨?_, ?_, ?_⟩
  · intro hall
    have hloop := waitJoinLoop_clean_zero numCmds waitRes closeR closeW hcr hcw h2
      (fun m hm => hall m (by omega))
    simp only [waitPiped, hloop]
    simp only [hall (numCmds - 1) (by omega), hcr]
    simp [specCleanWaitTrace, specProcessedPrefix,
      show ¬(numCmds - 1 = 0) by omega,
      show numCmds - 1 - 1 = numCmds - 2 by omega]
  · intro j failCode hj hfail hbefore
    have hloop := waitJoinLoop_failure_zero numCmds waitRes closeR closeW hcr hcw
      j failCode h2 hj hfail hbefore
    have heq : waitPiped numCmds waitRes closeR closeW =
        (specProcessedPrefix j ++ [.waitStage j], some (.osError failCode)) := by
      simp only [waitPiped, hloop]
    refine ⟨heq, ?_⟩
    intro k hk
    rw [heq]
    intro hmem
    rcases List.mem_append.mp hmem with hpre | hlast
    · exact absurd (specProcessedPrefix_waits j k hpre) (by omega)
    · simp at hlast
      omega
  · intro hres m hm
    simp only [waitPiped] at hres
    cases hl2 : (waitJoinLoop numCmds waitRes closeR closeW 0).2 with
    | some e =>
      rw [hl2] at hres
      simp at hres
    | none =>
      rw [hl2] at hres
      cases hw : waitRes (numCmds - 1) with
      | some code =>
        rw [hw] at hres
        simp at hres
      | none =>
        by_cases hmn : m < numCmds - 1
        · exact waitJoinLoop_none_implies_clean numCmds waitRes closeR closeW 0
            hl2 m (by omega) hmn
        · have hmeq : m = numCmds - 1 := by omega
          rw [hmeq]
          exact hw

/-- Witness for C1: a clean three-stage pipeline run follows the spec's
wait/close order exactly. -/
theorem waitPiped_spec_witness :
    waitPiped 3 (fun _ => none) (fun _ => none) (fun _ => none) =
      (specCleanWaitTrace 3, none) :=
  (waitPiped_spec 3 (fun _ => none) (fun _ => none) (fun _ => none)
    (by omega) (fun _ => rfl) (fun _ => rfl)).1 (fun m _ => rfl)

/-- Helper: lexical cleaning only ever emits components that were pushed
on the stack, so its output consists of clean components. -/
theorem cleanAux_good :
    ∀ rest stack, (∀ c ∈ stack, goodName c = true) →
      ∀ c ∈ cleanAux stack rest, goodName c = true := by
  intro rest
  induction rest with
  | nil =>
    intro stack hstack c hc
    simp only [cleanAux, List.mem_reverse] at hc
    exact hstack c hc
  | cons a rest ih =>
    intro stack hstack c hc
    simp only [cleanAux] at hc
    by_cases h1 : a = "" ∨ a = "."
    · rw [if_pos h1] at hc
      exact ih stack hstack c hc
    · rw [if_neg h1] at hc
      by_cases h2 : a = ".."
      · rw [if_pos h2] at hc
        exact ih stack.tail (fun c' hc' => hstack c' (List.tail_subset _ hc')) c hc
      · rw [if_neg h2] at hc
        refine ih (a :: stack) ?_ c hc
        intro c' hc'
        rcases List.mem_cons.mp hc' with rfl | hmem
        · simp only [goodName]
          push_neg at h1
          simp [h1.1, h1.2, h2]
        · exact hstack c' hmem

/-- Helper: lexical cleaning is the identity on a path of clean
components (relative to an accumulated stack). -/
theorem cleanAux_id :
    ∀ rest stack, (∀ c ∈ rest, goodName c = true) →
      cleanAux stack rest = stack.reverse ++ rest := by
  intro rest
  induction rest with
  | nil =>
    intro stack h
    simp [cleanAux]
  | cons a rest ih =>
    intro stack h
    have ha : goodName a = true := h a (by simp)
    simp only [goodName, decide_eq_true_eq] at ha
    push_neg at ha
    obtain ⟨ha1, ha2, ha3⟩ := ha
    simp only [cleanAux]
    rw [if_neg (by tauto), if_neg ha3]
    rw [ih (a :: stack) (fun c hc => h c (by simp [hc]))]
    simp

/-- Helper: every component of a cleaned path is clean. -/
theorem cleanComponents_good (p : List String) :
    ∀ c ∈ cleanComponents p, goodName c = true :=
  cleanAux_good p [] (by simp)

/-- Helper: cleaning a path of clean components is the identity. -/
theorem cleanComponents_id (p : List String) (h : ∀ c ∈ p, goodName c = true) :
    cleanComponents p = p := by
  rw [cleanComponents, cleanAux_id p [] h]
  simp

/-- Helper: in a well-formed filesystem the symlink walk only produces
clean components (the input components and every symlink target being
clean). -/
theorem walkSymlinks_good (fs : List String → Option FsEntry)
    (hwf : WellFormedFs fs) :
    ∀ fuel resolved rest, (∀ c ∈ resolved, goodName c = true) →
      (∀ c ∈ rest, goodName c = true) →
      ∀ q, walkSymlinks fs fuel resolved rest = .ok q →
        ∀ c ∈ q, goodName c = true := by
  intro fuel resolved rest
  induction fuel, resolved, rest using walkSymlinks.induct fs with
  | case1 fuel resolved =>
    intro hres hrest q hq
    rw [walkSymlinks.eq_def] at hq
    injection hq with hq
    subst hq
    exact hres
  | case2 fuel resolved c rest hfs =>
    intro hres hrest q hq
    rw [walkSymlinks.eq_def] at hq
    simp [hfs] at hq
  | case3 fuel resolved c rest hfs ih =>
    intro hres hrest q hq
    rw [walkSymlinks.eq_def] at hq
    simp only [hfs] at hq
    have hres' : ∀ c' ∈ resolved ++ [c], goodName c' = true := by
      intro c' hc'
      rcases List.mem_append.mp hc' with hm | hm
      · exact hres c' hm
      · simp only [List.mem_singleton] at hm
        subst hm
        exact hrest c' (by simp)
    exact ih hres' (fun c' hc' => hrest c' (by simp [hc'])) q hq
  | case4 fuel resolved c rest hfs ih =>
    intro hres hrest q hq
    rw [walkSymlinks.eq_def] at hq
    simp only [hfs] at hq
    have hres' : ∀ c' ∈ resolved ++ [c], goodName c' = true := by
      intro c' hc'
      rcases List.mem_append.mp hc' with hm | hm
      · exact hres c' hm
      · simp only [List.mem_singleton] at hm
        subst hm
        exact hrest c' (by simp)
    exact ih hres' (fun c' hc' => hrest c' (by simp [hc'])) q hq
  | case5 resolved c rest target hfs =>
    intro hres hrest q hq
    rw [walkSymlinks.eq_def] at hq
    simp [hfs] at hq
  | case6 resolved c rest target hfs fuel' ih =>
    intro hres hrest q hq
    rw [walkSymlinks.eq_def] at hq
    simp only [hfs] at hq
    have htarget : ∀ c' ∈ target ++ rest, goodName c' = true := by
      intro c' hc'
      rcases List.mem_append.mp hc' with hm | hm
      · exact hwf (resolved ++ [c]) target hfs c' hm
      · exact hrest c' (by simp [hm])
    exact ih (by simp) htarget q hq

/-- Helper: a successful symlink walk produces a path each of whose
non-empty prefixes names an existing non-link entry. -/
theorem walkSymlinks_fullyResolved (fs : List String → Option FsEntry) :
    ∀ fuel resolved rest,
      (∀ i, i < resolved.length →
        ∃ e, fs (resolved.take (i + 1)) = some e ∧ e.isLink = false) →
      ∀ q, walkSymlinks fs fuel resolved rest = .ok q → FullyResolved fs q := by
  intro fuel resolved rest
  induction fuel, resolved, rest using walkSymlinks.induct fs with
  | case1 fuel resolved =>
    intro hres q hq
    rw [walkSymlinks.eq_def] at hq
    injection hq with hq
    subst hq
    exact hres
  | case2 fuel resolved c rest hfs =>
    intro hres q hq
    rw [walkSymlinks.eq_def] at hq
    simp [hfs] at hq
  | case3 fuel resolved c rest hfs ih =>
    intro hres q hq
    rw [walkSymlinks.eq_def] at hq
    simp only [hfs] at hq
    refine ih ?_ q hq
    intro i hi
    rw [List.length_append, List.length_singleton] at hi
    by_cases hilt : i < resolved.length
    · obtain ⟨e, he, hl⟩ := hres i hilt
      refine ⟨e, ?_, hl⟩
      rw [List.take_append_of_le_length (by omega)]
      exact he
    · have hieq : i = resolved.length := by omega
      subst hieq
      refine ⟨.file, ?_, rfl⟩
      rw [List.take_of_length_le (by simp)]
      exact hfs
  | case4 fuel resolved c rest hfs ih =>
    intro hres q hq
    rw [walkSymlinks.eq_def] at hq
    simp only [hfs] at hq
    refine ih ?_ q hq
    intro i hi
    rw [List.length_append, List.length_singleton] at hi
    by_cases hilt : i < resolved.length
    · obtain ⟨e, he, hl⟩ := hres i hilt
      refine ⟨e, ?_, hl⟩
      rw [List.take_append_of_le_length (by omega)]
      exact he
    · have hieq : i = resolved.length := by omega
      subst hieq
      refine ⟨.dir, ?_, rfl⟩
      rw [List.take_of_length_le (by simp)]
      exact hfs
  | case5 resolved c rest target hfs =>
    intro hres q hq
    rw [walkSymlinks.eq_def] at hq
    simp [hfs] at hq
  | case6 resolved c rest target hfs fuel' ih =>
    intro hres q hq
    rw [walkSymlinks.eq_def] at hq
    simp only [hfs] at hq
    refine ih ?_ q hq
    intro i hi
    simp at hi

/-- Helper: walking a path whose every extension prefix of the already
resolved part names an existing non-link entry succeeds without touching
a symlink and returns the concatenation unchanged, for any link
budget. -/
theorem walkSymlinks_resolved_id (fs : List String → Option FsEntry) (fuel : Nat) :
    ∀ rest resolved,
      (∀ i, i < rest.length →
        ∃ e, fs (resolved ++ rest.take (i + 1)) = some e ∧ e.isLink = false) →
      walkSymlinks fs fuel resolved rest = .ok (resolved ++ rest) := by
  intro rest
  induction rest with
  | nil =>
    intro resolved h
    rw [walkSymlinks.eq_def]
    simp
  | cons c rest ih =>
    intro resolved h
    obtain ⟨e, he, hl⟩ := h 0 (by simp)
    simp only [List.take_succ_cons, List.take_zero] at he
    rw [walkSymlinks.eq_def]
    cases e with
    | file =>
      simp only [he]
      have hnext := ih (resolved ++ [c]) (by
        intro i hi
        obtain ⟨e', he', hl'⟩ := h (i + 1) (by simp; omega)
        refine ⟨e', ?_, hl'⟩
        simpa [List.append_assoc] using he')
      rw [hnext]
      simp
    | dir =>
      simp only [he]
      have hnext := ih (resolved ++ [c]) (by
        intro i hi
        obtain ⟨e', he', hl'⟩ := h (i + 1) (by simp; omega)
        refine ⟨e', ?_, hl'⟩
        simpa [List.append_assoc] using he')
      rw [hnext]
      simp
    | symlink t =>
      simp [FsEntry.isLink] at hl

/-- C7: canonicalization is idempotent — over any well-formed filesystem
model, if canonicalizing an existing path `p` succeeds with result `q`,
then canonicalizing `q` (with any link budget) succeeds and returns `q`
again, so canonicalize(canonicalize(p)) = canonicalize(p). -/
theorem cleanPathFs_idempotent (fs : List String → Option FsEntry)
    (hwf : WellFormedFs fs) (fuel fuel' : Nat) (p q : List String)
    (h : cleanPathFs fs fuel p = .ok q) :
    cleanPathFs fs fuel' q = .ok q := by
  have hgood : ∀ c ∈ q, goodName c = true :=
    walkSymlinks_good fs hwf fuel [] (cleanComponents p) (by simp)
      (cleanComponents_good p) q h
  have hfr : FullyResolved fs q :=
    walkSymlinks_fullyResolved fs fuel [] (cleanComponents p) (by simp) q h
  rw [cleanPathFs, cleanComponents_id q hgood]
  have hwalk := walkSymlinks_resolved_id fs fuel' q [] (by
    intro i hi
    obtain ⟨e, he, hl⟩ := hfr i hi
    exact ⟨e, by simpa using he, hl⟩)
  simpa using hwalk

/-- Witness for C7: a concrete filesystem where directory `a` contains a
symlink `b` to directory `c`; cleaning and resolving the path
`a//./b` yields `c`, and canonicalizing `c` again returns `c`. -/
theorem cleanPathFs_idempotent_witness :
    cleanPathFs
      (fun pth =>
        if pth = ["a"] then some .dir
        else if pth = ["a", "b"] then some (.symlink ["c"])
        else if pth = ["c"] then some .dir
        else none) 8 ["c"] = .ok ["c"] := by
  apply cleanPathFs_idempotent _ ?wf 8 8 ["a", "", ".", "b"] ["c"] ?run
  case wf =>
    intro p t h
    simp only at h
    split_ifs at h <;> simp_all [goodName]
    subst h
    decide
  case run =>
    have hclean : cleanComponents ["a", "", ".", "b"] = ["a", "b"] := by decide
    rw [cleanPathFs, hclean]
    rw [walkSymlinks.eq_def]
    norm_num
    rw [walkSymlinks.eq_def]
    norm_num
    rw [walkSymlinks.eq_def]
    norm_num
    rw [walkSymlinks.eq_def]

end OsUtils
